import Mathlib

/-!
Formal model of `src/Banker.cpp` (class `BankersAlgorithm`).

The C++ class stores five fields: `allocation` and `max` (matrices of
`int`), `available` and `resources` (vectors of `int`), and `completed`
(a vector of `bool`).  We model C++ `int` by `Int` (all values occurring
in the program are tiny, far from overflow), matrices by `List (List Int)`
and vectors by `List Int`.

Indexed loops of the source are translated as follows.  A loop
`for (i = 0; i < v.size(); ++i) x[i] op= v[i]` updates the prefix of `x`
of length `v.size()`; reading or writing `x[i]` for `i ≥ x.size()` is
undefined behavior in C++, so the translation returns its result only on
the prefix where both vectors are defined (`addReq`/`subReq` below), and
theorems that depend on in-bounds indexing carry explicit length
hypotheses.  Loops whose bound is `numResources` act on vectors that have
exactly `numResources` entries in every state the program constructs, and
are translated as componentwise list operations (`addv`, `subv`, `lev`).
The lock and condition variable of the source serialize calls; a single
call is modelled as a pure state transformer.
-/

abbrev Vec := List Int

abbrev Mat := List (List Int)

/-- Models `for (i = 0; i < ys.size(); ++i) xs[i] += ys[i]`:
adds `ys` onto the prefix of `xs`.  If `ys` is longer than `xs` the
source would index `xs` out of bounds (undefined behavior); the extra
entries of `ys` are dropped here. -/
def addReq : Vec → Vec → Vec
  | xs, [] => xs
  | [], _ :: _ => []
  | x :: xs, y :: ys => (x + y) :: addReq xs ys

/-- Models `for (i = 0; i < ys.size(); ++i) xs[i] -= ys[i]`, as `addReq`. -/
def subReq : Vec → Vec → Vec
  | xs, [] => xs
  | [], _ :: _ => []
  | x :: xs, y :: ys => (x - y) :: subReq xs ys

/-- Componentwise sum; models `for (j = 0; j < numResources; ++j)
work[j] += allocation[i][j]` where both vectors have `numResources`
entries. -/
def addv (xs ys : Vec) : Vec := List.zipWith (· + ·) xs ys

/-- Componentwise difference; models the `need[i][j] = max[i][j] -
allocation[i][j]` loop, both rows having `numResources` entries. -/
def subv (xs ys : Vec) : Vec := List.zipWith (· - ·) xs ys

/-- Models the `canExecute` loop of `isSafeState`: `true` iff no `j` with
`need[i][j] > work[j]` is found while scanning the entries of the first
vector (which has `numResources` entries whenever the source runs it). -/
def lev : Vec → Vec → Bool
  | [], _ => true
  | _ :: _, [] => true
  | x :: xs, y :: ys => decide (x ≤ y) && lev xs ys

/-- The state of a `BankersAlgorithm` object (mutex and condition
variable omitted; they only serialize calls). -/
structure Banker where
  allocation : Mat
  max : Mat
  available : Vec
  resources : Vec
  completed : List Bool
deriving DecidableEq

/-- The constructor `BankersAlgorithm(allocation, max, available)`:
stores the three inputs, sets all `completed` flags to `false`, and
computes `resources` as the column sums of `allocation` (the source
sizes `resources` by `allocation[0].size()` and loops `j` below that
bound over every row). -/
def mkBanker (allocation maxm : Mat) (available : Vec) : Banker :=
  let nR := (allocation.headD []).length
  { allocation := allocation
    max := maxm
    available := available
    resources := allocation.foldl addReq (List.replicate nR 0)
    completed := List.replicate allocation.length false }

/-- Result of one full scan of the process list inside `isSafeState`
(the local variables `safe`, `work`, `count`, `finished`). -/
structure PassResult where
  safe : List Bool
  work : Vec
  count : Nat
  finished : Bool

/-- The body of the `for (i = 0; i < numProcesses; ++i)` scan of
`isSafeState`, iterated over the remaining process indices: a process
`i` already marked safe is skipped; otherwise, if `need[i] ≤ work`
componentwise it is marked, `work += allocation[i]`, `count` is
incremented and `finished` is set to `false`. -/
def passAux (alloc needm : Mat) : List Nat → List Bool → Vec → Nat → Bool → PassResult
  | [], safe, work, count, fin => ⟨safe, work, count, fin⟩
  | i :: rest, safe, work, count, fin =>
    if safe.getD i false then
      passAux alloc needm rest safe work count fin
    else if lev (needm.getD i []) work then
      passAux alloc needm rest (safe.set i true) (addv work (alloc.getD i []))
        (count + 1) false
    else
      passAux alloc needm rest safe work count fin

/-- One iteration of the `do { ... }` body: `finished` is reset to
`true`, then all process indices are scanned in ascending order. -/
def pass (alloc needm : Mat) (safe : List Bool) (work : Vec) (count : Nat) : PassResult :=
  passAux alloc needm (List.range alloc.length) safe work count true

/-- The `do { ... } while (!finished && count < numProcesses)` loop of
`isSafeState`.  The loop runs at most `numProcesses + 1` times, because
every iteration that does not exit strictly increases `count`, which
never exceeds `numProcesses`; the `fuel` argument makes the recursion
structural, `isSafeState` supplies `numProcesses + 1`, and
`scanLoop_congr` below proves that any sufficient fuel gives the same
result, so the model agrees with the unbounded source loop. -/
def scanLoop (alloc needm : Mat) (n : Nat) : Nat → List Bool → Vec → Nat → List Bool × Nat
  | 0, safe, _, count => (safe, count)
  | fuel + 1, safe, work, count =>
    let r := pass alloc needm safe work count
    if r.finished = true ∨ n ≤ r.count then (r.safe, r.count)
    else scanLoop alloc needm n fuel r.safe r.work r.count

/-- `bool isSafeState()`: computes `need = max - allocation`, runs the
scan loop starting from `work = available`, `safe = all false`,
`count = 0`; returns `false` if `count < numProcesses`, otherwise `true`
iff every `safe` flag is set. -/
def isSafeState (st : Banker) : Bool :=
  let n := st.allocation.length
  let needm := List.zipWith subv st.max st.allocation
  let res := scanLoop st.allocation needm n (n + 1) (List.replicate n false) st.available 0
  if res.2 < n then false
  else res.1.all (fun b => b)

/-- The validation loop of `requestResources` (source lines 42–48):
`true` iff for every `i < request.size()` neither
`request[i] > max[processId][i] - allocation[processId][i]` nor
`request[i] > available[i]` holds.  Out-of-range reads (bad `processId`,
or `request` longer than the rows) are undefined behavior in the source;
here they read the default `0`. -/
def requestOk (st : Banker) (pid : Nat) (request : Vec) : Bool :=
  (List.range request.length).all (fun i =>
    decide (request.getD i 0 ≤ (st.max.getD pid []).getD i 0 -
      (st.allocation.getD pid []).getD i 0) &&
    decide (request.getD i 0 ≤ st.available.getD i 0))

/-- `bool requestResources(int processId, const vector<int>& request)`:
validate; on success build the tentative state (`allocation[processId] +=
request`, `available -= request`, `resources -= request`), run
`isSafeState` on a temporary `BankersAlgorithm` built from it; if safe,
commit the tentative state, set `completed[processId] = true`, and then
add `request` back onto both `available` and `resources`; otherwise
leave the state unchanged and return `false`. -/
def requestResources (st : Banker) (pid : Nat) (request : Vec) : Banker × Bool :=
  if requestOk st pid request then
    let tempAllocation := st.allocation.set pid (addReq (st.allocation.getD pid []) request)
    let tempAvailable := subReq st.available request
    let tempResources := subReq st.resources request
    let tempBanker := mkBanker tempAllocation st.max tempAvailable
    if isSafeState tempBanker then
      ({ st with
          allocation := tempAllocation
          available := addReq tempAvailable request
          resources := addReq tempResources request
          completed := st.completed.set pid true }, true)
    else (st, false)
  else (st, false)

/-- `void releaseResources(int processId, const vector<int>& release)`:
unconditionally `allocation[processId] -= release`, `available +=
release`, `resources += release`, and `completed[processId] = false`.
No validation of any kind is performed by the source. -/
def releaseResources (st : Banker) (pid : Nat) (release : Vec) : Banker :=
  { st with
      allocation := st.allocation.set pid (subReq (st.allocation.getD pid []) release)
      available := addReq st.available release
      resources := addReq st.resources release
      completed := st.completed.set pid false }

/-- Bounds-checked model of the validation loop of `requestResources`,
scanning `request`, `max[processId]`, `allocation[processId]` and
`available` in step.  `none` marks the first out-of-bounds vector access
(undefined behavior in the C++); the access order per iteration is
`max[processId][i]`, then `allocation[processId][i]`, then — only if the
first comparison fails, because `||` short-circuits — `available[i]`. -/
def reqScan : List Int → List Int → List Int → List Int → Option Bool
  | [], _, _, _ => some true
  | _ :: _, [], _, _ => none
  | _ :: _, _ :: _, [], _ => none
  | r :: rs, m :: ms, a :: as_, vs =>
    if m - a < r then some false
    else
      match vs with
      | [] => none
      | v :: vs' => if v < r then some false else reqScan rs ms as_ vs'

/-- Bounds-checked entry to the validation loop of `requestResources`:
with a nonempty `request`, the very first iteration reads
`max[processId][0]` and `allocation[processId][0]`, so an out-of-range
`processId` is an out-of-bounds access (`none`), not an error return. -/
def requestOkChecked (st : Banker) (pid : Nat) (request : Vec) : Option Bool :=
  match request with
  | [] => some true
  | _ :: _ =>
    match st.max.get? pid, st.allocation.get? pid with
    | some mrow, some arow => reqScan request mrow arow st.available
    | _, _ => none

/-- Bounds-checked model of `releaseResources`: `none` when the call
performs an out-of-bounds vector access (undefined behavior in the
C++).  With a nonempty `release`, the first loop iteration reads
`allocation[processId][0]`; with an empty `release`, the write
`completed[processId] = false` still requires `processId` in range. -/
def releaseResourcesChecked (st : Banker) (pid : Nat) (rel : Vec) : Option Banker :=
  match rel with
  | [] =>
    match st.completed.get? pid with
    | some _ => some (releaseResources st pid rel)
    | none => none
  | _ :: _ =>
    match st.allocation.get? pid with
    | some arow =>
      if rel.length ≤ arow.length ∧ rel.length ≤ st.available.length ∧
          rel.length ≤ st.resources.length ∧ pid < st.completed.length then
        some (releaseResources st pid rel)
      else none
    | none => none

/-- The Need row of process `p`: `max[p] - allocation[p]`
(`Need = maxClaim − allocation` in the specification). -/
def needOf (alloc maxm : Mat) (p : Nat) : Vec :=
  subv (maxm.getD p []) (alloc.getD p [])

/-- Specification-side predicate (from the spec's words, §4.3/§8): the
ordering `l` of processes is a valid completion order from `work`: each
listed process's Need is componentwise at most the work vector
accumulated by adding the allocations of the processes finished earlier. -/
def safeOrderB (alloc maxm : Mat) : Vec → List Nat → Bool
  | _, [] => true
  | work, p :: rest =>
    lev (needOf alloc maxm p) work && safeOrderB alloc maxm (addv work (alloc.getD p [])) rest

/-- Specification-side safety (from the spec's words): there exists an
ordering of all processes in which every process's Need is covered by
the accumulated work vector. -/
def SafeSeq (st : Banker) : Prop :=
  ∃ ord : List Nat, ord.Perm (List.range st.allocation.length) ∧
    safeOrderB st.allocation st.max st.available ord = true

/-- `sum_p allocation[p][r] + available[r]`, the conserved quantity
named by the specification's conservation invariant. -/
def totalOf (st : Banker) (r : Nat) : Int :=
  (st.allocation.map (fun row => row.getD r 0)).sum + st.available.getD r 0

/-- Allocation matrix of the classic 5-process/3-resource demo
(`runScenarios` in the source). -/
def classicAlloc : Mat := [[0, 1, 0], [2, 0, 0], [3, 0, 2], [2, 1, 1], [0, 0, 2]]

/-- Max-claim matrix of the classic demo. -/
def classicMax : Mat := [[7, 5, 3], [3, 2, 2], [9, 0, 2], [2, 2, 2], [4, 3, 3]]

/-- Available vector of the classic demo. -/
def classicAvail : Vec := [3, 3, 2]

/-- The manager built by `runScenarios`. -/
def classicB0 : Banker := mkBanker classicAlloc classicMax classicAvail

/-- State after scenario 1, `requestResources(1, {1, 0, 2})`. -/
def classicB1 : Banker := (requestResources classicB0 1 [1, 0, 2]).1

/-- State after scenario 2, `requestResources(0, {4, 3, 1})`. -/
def classicB2 : Banker := (requestResources classicB1 0 [4, 3, 1]).1

/-- One-process state refuting claim C1 as literally stated: the demand
`[-1]` passes both validation comparisons, is granted, and leaves an
unsafe real state behind. -/
def cexC1 : Banker := mkBanker [[1]] [[1]] [0]

/-- Two-process state refuting claim C2 as literally stated: its
matrices are rectangular with matching dimensions, but an allocation
entry is negative. -/
def cexC2 : Banker := mkBanker [[-10], [0]] [[-10], [2]] [2]

/-- Two-process state refuting claim C5 as literally stated: safe, and
the release `(-1)` satisfies `amounts[r] ≤ allocation[0][r]`. -/
def cexC5 : Banker := mkBanker [[1], [1]] [[3], [2]] [1]

/-- Claim C9: on the classic demo state, `requestResources(1, [1,0,2])`
is granted, then `requestResources(0, [4,3,1])` is denied, then
`requestResources(2, [6,0,0])` is denied. -/
theorem claim9_classic_scenario :
    (requestResources classicB0 1 [1, 0, 2]).2 = true ∧
    (requestResources classicB1 0 [4, 3, 1]).2 = false ∧
    (requestResources classicB2 2 [6, 0, 0]).2 = false := by
  decide

/-- Claim C3 is violated by the code (code bug documented in spec §9):
the successful grant `requestResources(1, [1,0,2])` on the classic state
raises `sum_p allocation[p][0] + available[0]` from 10 to 11, because
the source adds the granted amounts back onto `available` while keeping
the enlarged allocation. -/
theorem claim3_conservation_violated :
    (requestResources classicB0 1 [1, 0, 2]).2 = true ∧
    totalOf classicB0 0 = 10 ∧
    totalOf (requestResources classicB0 1 [1, 0, 2]).1 0 = 11 := by
  decide

/-- Claim C8 is violated by the code (inconsistency documented in spec
§9): the successful grant `requestResources(1, [1,0,2])` sets
`completed[1]` from `false` to `true`. -/
theorem claim8_grant_sets_completed :
    (requestResources classicB0 1 [1, 0, 2]).2 = true ∧
    classicB0.completed = [false, false, false, false, false] ∧
    (requestResources classicB0 1 [1, 0, 2]).1.completed =
      [false, true, false, false, false] := by
  decide

/-- Claim C6 is violated by the code: releasing `[1,0,0]` from process 0,
which holds `[0,1,0]`, exceeds the held amount in resource 0, yet the
source performs the release anyway — no `InvalidReleaseError` exists in
the program — driving `allocation[0][0]` to `-1` and `available[0]` to 4. -/
theorem claim6_release_unchecked :
    lev [1, 0, 0] (classicB0.allocation.getD 0 []) = false ∧
    (releaseResources classicB0 0 [1, 0, 0]).allocation.getD 0 [] = [-1, 1, 0] ∧
    (releaseResources classicB0 0 [1, 0, 0]).available = [4, 3, 2] := by
  decide

/-- Claim C7 is violated by the code: there are 5 processes, and calling
either operation with `processId = 5` performs an out-of-bounds vector
access (undefined behavior) instead of failing with an
`UnknownProcessError`, which does not exist in the program. -/
theorem claim7_no_range_check :
    classicB0.allocation.length = 5 ∧
    requestOkChecked classicB0 5 [1, 0, 2] = none ∧
    releaseResourcesChecked classicB0 5 [1, 0, 0] = none := by
  decide

/-- Counterexample to claim C1 as stated: the demand `[-1]` (which no
validation rejects) is granted from the safe state `cexC1`, and the real
state after the grant is unsafe. -/
theorem claim1_counterexample :
    isSafeState cexC1 = true ∧
    (requestResources cexC1 0 [-1]).2 = true ∧
    isSafeState (requestResources cexC1 0 [-1]).1 = false := by
  decide

/-- Counterexample to claim C5 as stated: `cexC5` is safe, the release
amounts `[-1]` are componentwise at most `allocation[0] = [1]` and the
process id is in range, yet the state after the release is unsafe. -/
theorem claim5_counterexample :
    isSafeState cexC5 = true ∧
    lev [-1] (cexC5.allocation.getD 0 []) = true ∧
    isSafeState (releaseResources cexC5 0 [-1]) = false := by
  decide

/-- Counterexample to claim C2 as stated: `cexC2` is rectangular with
matching dimensions, the order `[1, 0]` finishes all processes with
`Need ≤ work` at every step, yet `isSafeState` returns `false` (a
negative allocation entry makes the greedy scan shrink `work`). -/
theorem claim2_counterexample :
    (cexC2.max.length = cexC2.allocation.length ∧
      cexC2.available.length = 1 ∧
      (∀ row ∈ cexC2.allocation, row.length = 1) ∧
      (∀ row ∈ cexC2.max, row.length = 1)) ∧
    isSafeState cexC2 = false ∧ SafeSeq cexC2 :=
  ⟨by decide, by decide, ⟨[1, 0], by decide, by decide⟩⟩

/-- `addReq` keeps the length of its first argument (the updated vector). -/
theorem length_addReq : ∀ xs ys : Vec, (addReq xs ys).length = xs.length
  | _, [] => by simp [addReq]
  | [], _ :: _ => by simp [addReq]
  | x :: xs, y :: ys => by simp [addReq, length_addReq xs ys]

/-- `subReq` keeps the length of its first argument. -/
theorem length_subReq : ∀ xs ys : Vec, (subReq xs ys).length = xs.length
  | _, [] => by simp [subReq]
  | [], _ :: _ => by simp [subReq]
  | x :: xs, y :: ys => by simp [subReq, length_subReq xs ys]

/-- Subtracting a vector and adding it back restores the original:
this is exactly what the grant path of `requestResources` does to
`available`. -/
theorem addReq_subReq : ∀ xs ys : Vec, addReq (subReq xs ys) ys = xs
  | _, [] => by simp [subReq, addReq]
  | [], _ :: _ => by simp [subReq, addReq]
  | x :: xs, y :: ys => by simp [subReq, addReq, addReq_subReq xs ys]

/-- `requestResources` either leaves the state unchanged and returns
`false`, or both checks passed and it commits the grant. -/
theorem requestResources_cases (st : Banker) (pid : Nat) (request : Vec) :
    requestResources st pid request = (st, false) ∨
    (requestOk st pid request = true ∧
      isSafeState (mkBanker (st.allocation.set pid (addReq (st.allocation.getD pid []) request))
        st.max (subReq st.available request)) = true ∧
      requestResources st pid request =
        ({ st with
            allocation := st.allocation.set pid (addReq (st.allocation.getD pid []) request)
            available := addReq (subReq st.available request) request
            resources := addReq (subReq st.resources request) request
            completed := st.completed.set pid true }, true)) := by
  simp only [requestResources]
  split
  next h1 =>
    split
    next h2 => exact Or.inr ⟨h1, h2, rfl⟩
    next => exact Or.inl rfl
  next => exact Or.inl rfl

/-- A denied request leaves the state untouched: both `false` branches
of `requestResources` return the original state. -/
theorem requestResources_deny (st : Banker) (pid : Nat) (request : Vec)
    (h : (requestResources st pid request).2 = false) :
    (requestResources st pid request).1 = st := by
  rcases requestResources_cases st pid request with hc | hc
  · rw [hc]
  · rw [hc.2.2] at h
    exact Bool.noConfusion h

/-- Shape of a successful grant: the validation passed, the tentative
state passed the safety check, and the committed state is the tentative
allocation together with `available` and `resources` restored by the
add-back loop and `completed[pid]` set. -/
theorem requestResources_grant (st : Banker) (pid : Nat) (request : Vec)
    (h : (requestResources st pid request).2 = true) :
    requestOk st pid request = true ∧
    isSafeState (mkBanker (st.allocation.set pid (addReq (st.allocation.getD pid []) request))
      st.max (subReq st.available request)) = true ∧
    (requestResources st pid request).1 =
      { st with
          allocation := st.allocation.set pid (addReq (st.allocation.getD pid []) request)
          available := addReq (subReq st.available request) request
          resources := addReq (subReq st.resources request) request
          completed := st.completed.set pid true } := by
  rcases requestResources_cases st pid request with hc | hc
  · rw [hc] at h
    exact Bool.noConfusion h
  · exact ⟨hc.1, hc.2.1, by rw [hc.2.2]⟩

/-- Claim C4: whenever `requestResources` returns `false` — refused for
exceeding the remaining claim, for exceeding availability, or for an
unsafe hypothetical state — the allocation matrix and the available
vector are unchanged. -/
theorem claim4_deny_no_mutation (st : Banker) (pid : Nat) (request : Vec)
    (h : (requestResources st pid request).2 = false) :
    (requestResources st pid request).1.allocation = st.allocation ∧
    (requestResources st pid request).1.available = st.available := by
  rw [requestResources_deny st pid request h]
  exact ⟨rfl, rfl⟩

/-- Witness for claim C4 at the denied scenario-2 call of the source. -/
theorem claim4_witness :
    (requestResources classicB0 0 [4, 3, 1]).2 = false ∧
    ((requestResources classicB0 0 [4, 3, 1]).1.allocation = classicB0.allocation ∧
      (requestResources classicB0 0 [4, 3, 1]).1.available = classicB0.available) :=
  ⟨by decide, claim4_deny_no_mutation classicB0 0 [4, 3, 1] (by decide)⟩

/-- Claim C10: a successful grant leaves `available` exactly as it was
(the amounts are subtracted and then added back), while
`allocation[pid]` has gained the request componentwise. -/
theorem claim10_available_restored (st : Banker) (pid : Nat) (request : Vec)
    (h : (requestResources st pid request).2 = true) :
    (requestResources st pid request).1.available = st.available ∧
    (requestResources st pid request).1.allocation =
      st.allocation.set pid (addReq (st.allocation.getD pid []) request) := by
  obtain ⟨-, -, hshape⟩ := requestResources_grant st pid request h
  rw [hshape]
  exact ⟨addReq_subReq st.available request, rfl⟩

/-- Witness for claim C10 at the granted scenario-1 call of the source. -/
theorem claim10_witness :
    (requestResources classicB0 1 [1, 0, 2]).2 = true ∧
    ((requestResources classicB0 1 [1, 0, 2]).1.available = classicB0.available ∧
      (requestResources classicB0 1 [1, 0, 2]).1.allocation =
        classicB0.allocation.set 1 (addReq (classicB0.allocation.getD 1 []) [1, 0, 2])) :=
  ⟨by decide, claim10_available_restored classicB0 1 [1, 0, 2] (by decide)⟩

/-- Componentwise order used throughout: `lev` is monotone in its right
argument along a componentwise-ordered pair of work vectors. -/
theorem lev_mono_right (a : Vec) : ∀ {w w' : Vec}, List.Forall₂ (· ≤ ·) w w' →
    lev a w = true → lev a w' = true := by
  induction a with
  | nil => intro w w' _ _; rfl
  | cons x xs ih =>
    intro w w' hf hl
    cases hf with
    | nil => exact hl
    | cons hxy htail =>
      simp only [lev, Bool.and_eq_true, decide_eq_true_eq] at hl ⊢
      exact ⟨le_trans hl.1 hxy, ih htail hl.2⟩

/-- Componentwise `≤` is reflexive. -/
theorem vle_refl : ∀ v : Vec, List.Forall₂ (· ≤ ·) v v
  | [] => List.Forall₂.nil
  | _ :: xs => List.Forall₂.cons le_rfl (vle_refl xs)

/-- Adding the same vector on the right preserves componentwise `≤`. -/
theorem vle_addv : ∀ {w w' : Vec}, List.Forall₂ (· ≤ ·) w w' →
    ∀ r : Vec, List.Forall₂ (· ≤ ·) (addv w r) (addv w' r) := by
  intro w w' hf
  induction hf with
  | nil => intro r; exact List.Forall₂.nil
  | cons hxy htail ih =>
    intro r
    cases r with
    | nil => exact List.Forall₂.nil
    | cons z zs => exact List.Forall₂.cons (by exact add_le_add_right hxy z) (ih zs)

/-- Adding a nonnegative vector (on the prefix it covers) can only grow
a vector componentwise. -/
theorem vle_addReq : ∀ (w d : Vec), (∀ x ∈ d, 0 ≤ x) →
    List.Forall₂ (· ≤ ·) w (addReq w d)
  | w, [], _ => by rw [addReq]; exact vle_refl w
  | [], _ :: _, _ => by simp [addReq]
  | x :: xs, y :: ys, hd => by
    simp only [addReq]
    exact List.Forall₂.cons (le_add_of_nonneg_right (hd y (by simp)))
      (vle_addReq xs ys (fun z hz => hd z (by simp [hz])))

/-- Subtracting a nonnegative vector can only shrink a vector
componentwise. -/
theorem vle_subReq : ∀ (w d : Vec), (∀ x ∈ d, 0 ≤ x) →
    List.Forall₂ (· ≤ ·) (subReq w d) w
  | w, [], _ => by rw [subReq]; exact vle_refl w
  | [], _ :: _, _ => by simp [subReq]
  | x :: xs, y :: ys, hd => by
    simp only [subReq]
    exact List.Forall₂.cons (sub_le_self x (hd y (by simp)))
      (vle_subReq xs ys (fun z hz => hd z (by simp [hz])))

/-- A valid completion order from work `w` is still valid from any
componentwise-larger work vector. -/
theorem safeOrderB_mono (alloc maxm : Mat) :
    ∀ (l : List Nat) {w w' : Vec}, List.Forall₂ (· ≤ ·) w w' →
    safeOrderB alloc maxm w l = true → safeOrderB alloc maxm w' l = true := by
  intro l
  induction l with
  | nil => intro w w' _ _; rfl
  | cons p rest ih =>
    intro w w' hf h
    simp only [safeOrderB, Bool.and_eq_true] at h ⊢
    exact ⟨lev_mono_right _ hf h.1, ih (vle_addv hf _) h.2⟩

/-- `getD` after `set` at the written index (in range). -/
theorem getD_set_self {α : Type} : ∀ (l : List α) (i : Nat) (a d : α), i < l.length →
    (l.set i a).getD i d = a
  | [], i, _, _, h => by simp at h
  | _ :: _, 0, _, _, _ => rfl
  | _ :: xs, i + 1, a, d, h => by
    simp only [List.set, List.getD, List.getElem?_cons_succ]
    exact getD_set_self xs i a d (by simpa using h)

/-- `getD` after `set` at a different index. -/
theorem getD_set_ne {α : Type} : ∀ (l : List α) (i j : Nat) (a d : α), i ≠ j →
    (l.set i a).getD j d = l.getD j d
  | [], _, _, _, _, _ => rfl
  | _ :: _, 0, 0, _, _, h => absurd rfl h
  | _ :: _, 0, _ + 1, _, _, _ => rfl
  | _ :: _, _ + 1, 0, _, _, _ => rfl
  | _ :: xs, i + 1, j + 1, a, d, h => by
    simp only [List.set, List.getD, List.getElem?_cons_succ]
    exact getD_set_ne xs i j a d (fun hc => h (by rw [hc]))

/-- Setting the row `pid` of a matrix to a function of that row, where
the function fixes `[]`, commutes with reading the row back: this covers
both in-range `pid` and (vacuously, by the out-of-range `set` no-op and
`getD` default) out-of-range `pid`. -/
theorem getD_set_row (alloc : Mat) (pid : Nat) (v : List Int) (hv : alloc.length ≤ pid → v = []) :
    (alloc.set pid v).getD pid [] = v := by
  by_cases h : pid < alloc.length
  · exact getD_set_self alloc pid v [] h
  · rw [List.set_eq_of_length_le (by omega), List.getD_eq_default _ _ (by omega), hv (by omega)]

/-- An in-range `getD` is a member of the list. -/
theorem getD_mem {α : Type} (l : List α) (i : Nat) (d : α) (h : i < l.length) :
    l.getD i d ∈ l := by
  rw [List.getD_eq_getElem l d h]
  exact List.getElem_mem h

/-- `getD` of a `zipWith` at an index below both lengths. -/
theorem getD_zipWith {α β γ : Type} (f : α → β → γ) (da : α) (db : β) (dc : γ) :
    ∀ (xs : List α) (ys : List β) (i : Nat), i < xs.length → i < ys.length →
    (List.zipWith f xs ys).getD i dc = f (xs.getD i da) (ys.getD i db)
  | [], _, i, hx, _ => by simp at hx
  | _ :: _, [], i, _, hy => by simp at hy
  | x :: xs, y :: ys, 0, _, _ => rfl
  | x :: xs, y :: ys, i + 1, hx, hy => by
    simp only [List.zipWith, List.getD, List.getElem?_cons_succ]
    exact getD_zipWith f da db dc xs ys i (by simpa using hx) (by simpa using hy)

/-- The work vector accumulated by finishing the processes of `l` in
order, starting from `avail` (spec §4.3: `work += allocation[p]`). -/
def workOf (alloc : Mat) (avail : Vec) (l : List Nat) : Vec :=
  l.foldl (fun w i => addv w (alloc.getD i [])) avail

/-- `workOf` over an appended order. -/
theorem workOf_append (alloc : Mat) (avail : Vec) (l1 l2 : List Nat) :
    workOf alloc avail (l1 ++ l2) = workOf alloc (workOf alloc avail l1) l2 := by
  simp [workOf, List.foldl_append]

/-- `workOf` preserves the common length `nR`. -/
theorem workOf_length (alloc : Mat) (nR : Nat) :
    ∀ (l : List Nat) (avail : Vec), avail.length = nR →
    (∀ i ∈ l, (alloc.getD i []).length = nR) →
    (workOf alloc avail l).length = nR := by
  intro l
  induction l with
  | nil => intro avail ha _; exact ha
  | cons i rest ih =>
    intro avail ha hrows
    simp only [workOf, List.foldl_cons]
    have hlen : (addv avail (alloc.getD i [])).length = nR := by
      simp only [addv, List.length_zipWith, ha, hrows i (List.mem_cons_self i rest)]
      omega
    exact ih (addv avail (alloc.getD i [])) hlen (fun j hj => hrows j (by simp [hj]))

/-- Pointwise description of `workOf`: entry `j` is `avail[j]` plus the
sum of the `j`-th entries of the listed allocation rows. -/
theorem workOf_getD (alloc : Mat) (nR : Nat) :
    ∀ (l : List Nat) (avail : Vec), avail.length = nR →
    (∀ i ∈ l, (alloc.getD i []).length = nR) →
    ∀ j, j < nR →
    (workOf alloc avail l).getD j 0 =
      avail.getD j 0 + (l.map (fun i => (alloc.getD i []).getD j 0)).sum := by
  intro l
  induction l with
  | nil => intro avail _ _ j _; simp [workOf]
  | cons i rest ih =>
    intro avail ha hrows j hj
    simp only [workOf, List.foldl_cons, List.map_cons, List.sum_cons]
    have hlen : (addv avail (alloc.getD i [])).length = nR := by
      simp only [addv, List.length_zipWith, ha, hrows i (List.mem_cons_self i rest)]
      omega
    have hstep := ih (addv avail (alloc.getD i [])) hlen
      (fun q hq => hrows q (by simp [hq])) j hj
    simp only [workOf] at hstep
    rw [hstep]
    simp only [addv]
    rw [getD_zipWith (· + ·) 0 0 0 avail (alloc.getD i []) j (by omega)
      (by rw [hrows i (List.mem_cons_self i rest)]; omega)]
    omega

/-- Sums of a nonnegative function over a duplicate-free list grow along
list inclusion. -/
theorem map_sum_le_of_nodup_subset (f : Nat → Int) :
    ∀ (sig done : List Nat), sig.Nodup → (∀ i ∈ sig, i ∈ done) →
    (∀ i ∈ done, 0 ≤ f i) →
    (sig.map f).sum ≤ (done.map f).sum := by
  intro sig
  induction sig with
  | nil =>
    intro done _ _ hnn
    simp only [List.map_nil, List.sum_nil]
    exact List.sum_nonneg (by
      intro x hx
      obtain ⟨i, hi, rfl⟩ := List.mem_map.1 hx
      exact hnn i hi)
  | cons i sig ih =>
    intro done hnd hsub hnn
    have hmem : i ∈ done := hsub i (by simp)
    have hperm : done.Perm (i :: done.erase i) := List.perm_cons_erase hmem
    have hsum : (done.map f).sum = f i + ((done.erase i).map f).sum := by
      rw [(hperm.map f).sum_eq]
      simp
    rw [hsum]
    simp only [List.map_cons, List.sum_cons]
    have hsig : ∀ q ∈ sig, q ∈ done.erase i := by
      intro q hq
      have hqi : q ≠ i := fun hc => (List.nodup_cons.1 hnd).1 (hc ▸ hq)
      exact (List.mem_erase_of_ne hqi).2 (hsub q (by simp [hq]))
    have := ih (done.erase i) (List.nodup_cons.1 hnd).2 hsig
      (fun q hq => hnn q (List.mem_of_mem_erase hq))
    omega

/-- Componentwise order from lengths plus pointwise `getD` bounds. -/
theorem vle_of_getD : ∀ (a b : Vec), a.length = b.length →
    (∀ j, j < a.length → a.getD j 0 ≤ b.getD j 0) →
    List.Forall₂ (· ≤ ·) a b
  | [], [], _, _ => List.Forall₂.nil
  | [], _ :: _, h, _ => by simp at h
  | _ :: _, [], h, _ => by simp at h
  | x :: xs, y :: ys, h, hp =>
    List.Forall₂.cons (hp 0 (by simp))
      (vle_of_getD xs ys (by simpa using h)
        (fun j hj => hp (j + 1) (by simpa using hj)))

/-- The accumulated work of a sub-collection of finished processes is
componentwise at most that of the full collection, for nonnegative
allocation rows. -/
theorem workOf_le_workOf (alloc : Mat) (avail : Vec) (nR : Nat) (sig done : List Nat)
    (hnd : sig.Nodup) (hsub : ∀ i ∈ sig, i ∈ done)
    (ha : avail.length = nR)
    (hrows : ∀ i ∈ done, (alloc.getD i []).length = nR)
    (hnn : ∀ i ∈ done, ∀ x ∈ alloc.getD i [], 0 ≤ x) :
    List.Forall₂ (· ≤ ·) (workOf alloc avail sig) (workOf alloc avail done) := by
  have hrowss : ∀ i ∈ sig, (alloc.getD i []).length = nR := fun i hi => hrows i (hsub i hi)
  apply vle_of_getD
  · rw [workOf_length alloc nR sig avail ha hrowss, workOf_length alloc nR done avail ha hrows]
  · intro j hj
    rw [workOf_length alloc nR sig avail ha hrowss] at hj
    rw [workOf_getD alloc nR sig avail ha hrowss j hj,
      workOf_getD alloc nR done avail ha hrows j hj]
    have : ((sig.map fun i => (alloc.getD i []).getD j 0).sum ≤
        (done.map fun i => (alloc.getD i []).getD j 0).sum) := by
      apply map_sum_le_of_nodup_subset _ sig done hnd hsub
      intro i hi
      have hrl := hrows i hi
      exact hnn i hi _ (getD_mem _ j 0 (by omega))
    omega

/-- `safeOrderB` over an appended order splits into the first part and
the second part run from the accumulated work. -/
theorem safeOrderB_append (alloc maxm : Mat) :
    ∀ (l1 l2 : List Nat) (w : Vec),
    safeOrderB alloc maxm w (l1 ++ l2) =
      (safeOrderB alloc maxm w l1 && safeOrderB alloc maxm (workOf alloc w l1) l2) := by
  intro l1
  induction l1 with
  | nil => intro l2 w; simp [safeOrderB, workOf]
  | cons p rest ih =>
    intro l2 w
    simp only [List.cons_append, safeOrderB, List.append_eq]
    rw [ih l2 (addv w (alloc.getD p []))]
    simp only [workOf, List.foldl_cons, Bool.and_assoc]

/-- Loop invariant of the safety scan: the marked processes form a
duplicate-free list `done` of in-range indices which is a valid
completion order from `available`; `count` is its size, and `work` is
the work vector accumulated over it. -/
def ScanInv (alloc maxm : Mat) (avail : Vec) (n : Nat)
    (safe : List Bool) (work : Vec) (count : Nat) : Prop :=
  ∃ done : List Nat,
    done.Nodup ∧ (∀ i ∈ done, i < n) ∧ count = done.length ∧
    safe.length = n ∧
    (∀ i, i < n → ((safe.getD i false = true) ↔ i ∈ done)) ∧
    work = workOf alloc avail done ∧
    safeOrderB alloc maxm avail done = true

/-- A pass started with `finished = false` reports `finished = false`. -/
theorem passAux_fin_false (alloc needm : Mat) :
    ∀ (L : List Nat) (safe : List Bool) (work : Vec) (count : Nat),
    (passAux alloc needm L safe work count false).finished = false := by
  intro L
  induction L with
  | nil => intro safe work count; rfl
  | cons i rest ih =>
    intro safe work count
    simp only [passAux]
    split
    · exact ih safe work count
    · split
      · exact ih _ _ _
      · exact ih safe work count

/-- `count` never decreases across a pass. -/
theorem passAux_count_le (alloc needm : Mat) :
    ∀ (L : List Nat) (safe : List Bool) (work : Vec) (count : Nat) (fin : Bool),
    count ≤ (passAux alloc needm L safe work count fin).count := by
  intro L
  induction L with
  | nil => intro safe work count fin; exact Nat.le_refl count
  | cons i rest ih =>
    intro safe work count fin
    simp only [passAux]
    split
    · exact ih safe work count fin
    · split
      · exact Nat.le_trans (Nat.le_succ count) (ih _ _ _ _)
      · exact ih safe work count fin

/-- A pass that starts and ends with `finished = true` marked nothing:
state unchanged, and every unmarked listed process fails its `need ≤
work` test. -/
theorem passAux_stuck (alloc needm : Mat) :
    ∀ (L : List Nat) (safe : List Bool) (work : Vec) (count : Nat),
    (passAux alloc needm L safe work count true).finished = true →
    passAux alloc needm L safe work count true = ⟨safe, work, count, true⟩ ∧
    (∀ i ∈ L, safe.getD i false = false → lev (needm.getD i []) work = false) := by
  intro L
  induction L with
  | nil => intro safe work count _; exact ⟨rfl, by simp⟩
  | cons i rest ih =>
    intro safe work count hfin
    simp only [passAux] at hfin ⊢
    split at hfin
    next hs =>
      obtain ⟨heq, hprop⟩ := ih safe work count hfin
      rw [if_pos hs]
      refine ⟨heq, ?_⟩
      intro q hq hqf
      rcases List.mem_cons.1 hq with rfl | hq2
      · rw [hqf] at hs; exact absurd hs (by simp)
      · exact hprop q hq2 hqf
    next hs =>
      split at hfin
      next hl =>
        rw [passAux_fin_false alloc needm rest _ _ _] at hfin
        exact absurd hfin (by simp)
      next hl =>
        obtain ⟨heq, hprop⟩ := ih safe work count hfin
        rw [if_neg hs, if_neg hl]
        refine ⟨heq, ?_⟩
        intro q hq hqf
        rcases List.mem_cons.1 hq with rfl | hq2
        · simpa using hl
        · exact hprop q hq2 hqf

/-- A pass that reports progress strictly increased `count`. -/
theorem passAux_progress (alloc needm : Mat) :
    ∀ (L : List Nat) (safe : List Bool) (work : Vec) (count : Nat),
    (passAux alloc needm L safe work count true).finished = false →
    count < (passAux alloc needm L safe work count true).count := by
  intro L
  induction L with
  | nil => intro safe work count h; exact absurd h (by simp [passAux])
  | cons i rest ih =>
    intro safe work count h
    simp only [passAux] at h ⊢
    split at h
    next hs => rw [if_pos hs]; exact ih safe work count h
    next hs =>
      split at h
      next hl =>
        rw [if_neg hs, if_pos hl]
        exact Nat.lt_of_lt_of_le (Nat.lt_succ_self count) (passAux_count_le _ _ _ _ _ _ _)
      next hl =>
        rw [if_neg hs, if_neg hl]
        exact ih safe work count h

/-- Appending a fresh element keeps a list duplicate-free. -/
theorem nodup_append_singleton {a : Nat} {l : List Nat} (hl : l.Nodup) (ha : a ∉ l) :
    (l ++ [a]).Nodup := by
  simp [List.nodup_append, hl, ha]

/-- The scan body preserves the loop invariant. -/
theorem passAux_inv (alloc maxm needm : Mat) (avail : Vec) (n : Nat)
    (hneed : ∀ i, i < n → needm.getD i [] = needOf alloc maxm i) :
    ∀ (L : List Nat) (safe : List Bool) (work : Vec) (count : Nat) (fin : Bool),
    (∀ i ∈ L, i < n) →
    ScanInv alloc maxm avail n safe work count →
    ScanInv alloc maxm avail n (passAux alloc needm L safe work count fin).safe
      (passAux alloc needm L safe work count fin).work
      (passAux alloc needm L safe work count fin).count := by
  intro L
  induction L with
  | nil => intro safe work count fin _ hI; exact hI
  | cons i rest ih =>
    intro safe work count fin hL hI
    have hin : i < n := hL i (by simp)
    simp only [passAux]
    split
    next hs => exact ih safe work count fin (fun q hq => hL q (by simp [hq])) hI
    next hs =>
      split
      next hl =>
        apply ih _ _ _ _ (fun q hq => hL q (by simp [hq]))
        obtain ⟨done, hnd, hlt, hcnt, hslen, hiff, hwork, hord⟩ := hI
        have hnot : i ∉ done := by
          intro hmem
          exact hs ((hiff i hin).2 hmem)
        refine ⟨done ++ [i], nodup_append_singleton hnd hnot, ?_, ?_, ?_, ?_, ?_, ?_⟩
        · intro q hq
          rcases List.mem_append.1 hq with hq2 | hq2
          · exact hlt q hq2
          · simp at hq2; omega
        · simp [hcnt]
        · simp [hslen]
        · intro q hq
          by_cases hqi : q = i
          · subst hqi
            rw [getD_set_self safe q true false (by omega)]
            simp
          · rw [getD_set_ne safe i q true false (fun hc => hqi hc.symm)]
            rw [hiff q hq]
            simp [List.mem_append, hqi]
        · rw [workOf_append, hwork]
          rfl
        · rw [safeOrderB_append]
          simp only [Bool.and_eq_true]
          refine ⟨hord, ?_⟩
          simp only [safeOrderB, Bool.and_eq_true]
          refine ⟨?_, trivial⟩
          rw [← hneed i hin, ← hwork]
          exact hl
      next hl => exact ih safe work count fin (fun q hq => hL q (by simp [hq])) hI

/-- `getD` on a replicated `false` list is `false` at every index. -/
theorem getD_replicate_false : ∀ (n i : Nat), (List.replicate n false).getD i false = false
  | 0, _ => rfl
  | _ + 1, 0 => rfl
  | n + 1, i + 1 => by
    simp only [List.replicate, List.getD, List.getElem?_cons_succ]
    have h := getD_replicate_false n i
    simp only [List.getD] at h
    exact h

/-- A boolean list whose entries are all `true` (pointwise via `getD`)
passes `List.all`. -/
theorem all_eq_true_of_getD : ∀ (l : List Bool),
    (∀ i, i < l.length → l.getD i false = true) → l.all (fun b => b) = true
  | [], _ => rfl
  | b :: bs, h => by
    simp only [List.all_cons, Bool.and_eq_true]
    exact ⟨h 0 (by simp), all_eq_true_of_getD bs (fun i hi => h (i + 1) (by simpa using hi))⟩

/-- Once `count` has reached `n`, the invariant forces every process to
be marked and the marked list to be a permutation of all processes. -/
theorem inv_count_ge_all (alloc maxm : Mat) (avail : Vec) (n : Nat)
    (safe : List Bool) (work : Vec) (count : Nat)
    (hI : ScanInv alloc maxm avail n safe work count) (hc : n ≤ count) :
    count = n ∧ safe.length = n ∧ (∀ i, i < n → safe.getD i false = true) ∧
    ∃ done : List Nat, done.Perm (List.range n) ∧ safeOrderB alloc maxm avail done = true := by
  obtain ⟨done, hnd, hlt, hcnt, hslen, hiff, _, hord⟩ := hI
  have hsub : List.Subperm done (List.range n) :=
    hnd.subperm (fun i hi => List.mem_range.2 (hlt i hi))
  have hlen : done.length ≤ n := by simpa using hsub.length_le
  have hperm : done.Perm (List.range n) := hsub.perm_of_length_le (by simp; omega)
  refine ⟨by omega, hslen, ?_, done, hperm, hord⟩
  intro i hin
  exact (hiff i hin).2 (hperm.mem_iff.2 (List.mem_range.2 hin))

/-- Unfolding equation for `pass`. -/
theorem pass_eq (alloc needm : Mat) (safe : List Bool) (work : Vec) (count : Nat) :
    pass alloc needm safe work count =
      passAux alloc needm (List.range alloc.length) safe work count true := rfl

/-- The scan loop preserves the invariant (for any fuel). -/
theorem scanLoop_inv (alloc maxm needm : Mat) (avail : Vec) (n : Nat)
    (hn : alloc.length = n)
    (hneed : ∀ i, i < n → needm.getD i [] = needOf alloc maxm i) :
    ∀ (fuel : Nat) (safe : List Bool) (work : Vec) (count : Nat),
    ScanInv alloc maxm avail n safe work count →
    ∃ w', ScanInv alloc maxm avail n
      (scanLoop alloc needm n fuel safe work count).1 w'
      (scanLoop alloc needm n fuel safe work count).2 := by
  intro fuel
  induction fuel with
  | zero => intro safe work count hI; exact ⟨work, hI⟩
  | succ fuel ih =>
    intro safe work count hI
    have hr := passAux_inv alloc maxm needm avail n hneed (List.range alloc.length)
      safe work count true (fun i hi => by have := List.mem_range.1 hi; omega) hI
    simp only [scanLoop, pass_eq] at hr ⊢
    split
    next =>
      exact ⟨(passAux alloc needm (List.range alloc.length) safe work count true).work, hr⟩
    next => exact ih _ _ _ hr

/-- Any two sufficient fuels give the scan loop the same result: the
model with fuel `numProcesses + 1` computes the source's unbounded
`do/while` loop. -/
theorem scanLoop_congr (alloc needm : Mat) (n : Nat) :
    ∀ (fuel1 fuel2 : Nat) (safe : List Bool) (work : Vec) (count : Nat),
    n - count < fuel1 → n - count < fuel2 →
    scanLoop alloc needm n fuel1 safe work count =
      scanLoop alloc needm n fuel2 safe work count := by
  intro fuel1
  induction fuel1 with
  | zero => intro fuel2 safe work count h1 _; omega
  | succ fuel1 ih =>
    intro fuel2 safe work count h1 h2
    cases fuel2 with
    | zero => omega
    | succ fuel2 =>
      simp only [scanLoop, pass_eq]
      split
      next => rfl
      next hcond =>
        push_neg at hcond
        have hprog := passAux_progress alloc needm (List.range alloc.length) safe work count
          (by simpa using hcond.1)
        have hlt := hcond.2
        exact ih fuel2 _ _ _ (by omega) (by omega)

/-- Safety soundness: a `true` answer of `isSafeState` yields an
explicit completion order of all processes (the order in which the scan
marked them). -/
theorem isSafeState_sound (st : Banker)
    (hm : st.max.length = st.allocation.length)
    (h : isSafeState st = true) : SafeSeq st := by
  have hneed : ∀ i, i < st.allocation.length →
      (List.zipWith subv st.max st.allocation).getD i [] = needOf st.allocation st.max i := by
    intro i hi
    rw [getD_zipWith subv [] [] [] st.max st.allocation i (by omega) hi]
    rfl
  have hinit : ScanInv st.allocation st.max st.available st.allocation.length
      (List.replicate st.allocation.length false) st.available 0 := by
    refine ⟨[], List.nodup_nil, by simp, by simp, by simp, ?_, rfl, rfl⟩
    intro i _
    simp [getD_replicate_false]
  obtain ⟨w', hI⟩ := scanLoop_inv st.allocation st.max
    (List.zipWith subv st.max st.allocation) st.available st.allocation.length rfl hneed
    (st.allocation.length + 1) (List.replicate st.allocation.length false) st.available 0 hinit
  simp only [isSafeState] at h
  split at h
  · exact absurd h (by simp)
  next hc =>
    obtain ⟨-, -, -, done, hperm, hord⟩ :=
      inv_count_ge_all _ _ _ _ _ _ _ hI (by omega)
    exact ⟨done, hperm, hord⟩

/-- Key exchange argument: if no unmarked process passes `need ≤ work`
over the work accumulated from the marked list `done`, but some order
`ord` of all processes is a valid completion order, then every process
is already marked.  Walking along `ord`, each process's need is covered
by the work of the processes before it, which is componentwise at most
the work of `done` because allocation rows are nonnegative. -/
theorem stuck_all_in (alloc maxm : Mat) (avail : Vec) (n nR : Nat)
    (ha : avail.length = nR)
    (hrows : ∀ i, i < n → (alloc.getD i []).length = nR)
    (hnn : ∀ i, i < n → ∀ x ∈ alloc.getD i [], 0 ≤ x)
    (done : List Nat) (_hdnd : done.Nodup) (hdlt : ∀ i ∈ done, i < n)
    (hstuck : ∀ i, i < n → i ∉ done →
      lev (needOf alloc maxm i) (workOf alloc avail done) = false)
    (ord : List Nat) (hperm : ord.Perm (List.range n))
    (hord : safeOrderB alloc maxm avail ord = true) :
    ∀ i, i < n → i ∈ done := by
  have hordnd : ord.Nodup := hperm.nodup_iff.2 (List.nodup_range n)
  suffices hmain : ∀ tau sig : List Nat, ord = sig ++ tau →
      (∀ q ∈ sig, q ∈ done) → ∀ q ∈ tau, q ∈ done by
    intro i hin
    exact hmain ord [] rfl (by simp) i (hperm.mem_iff.2 (List.mem_range.2 hin))
  intro tau
  induction tau with
  | nil => intro sig _ _ q hq; simp at hq
  | cons q tau ih =>
    intro sig hsplit hsig
    have hq_done : q ∈ done := by
      have hdecomp : (safeOrderB alloc maxm avail sig &&
          safeOrderB alloc maxm (workOf alloc avail sig) (q :: tau)) = true := by
        rw [← safeOrderB_append alloc maxm sig (q :: tau) avail, ← hsplit]
        exact hord
      simp only [Bool.and_eq_true] at hdecomp
      have hlev : lev (needOf alloc maxm q) (workOf alloc avail sig) = true := by
        have h1 := hdecomp.2
        simp only [safeOrderB, Bool.and_eq_true] at h1
        exact h1.1
      have hsignd : sig.Nodup :=
        List.Nodup.sublist (by rw [hsplit]; exact List.sublist_append_left sig (q :: tau)) hordnd
      have hmono := workOf_le_workOf alloc avail nR sig done hsignd hsig ha
        (fun i hi => hrows i (hdlt i hi)) (fun i hi => hnn i (hdlt i hi))
      have hlev2 := lev_mono_right _ hmono hlev
      have hqn : q < n := by
        have hqo : q ∈ ord := by rw [hsplit]; simp
        exact List.mem_range.1 (hperm.mem_iff.1 hqo)
      by_contra hq
      rw [hstuck q hqn hq] at hlev2
      exact Bool.noConfusion hlev2
    intro p hp
    rcases List.mem_cons.1 hp with rfl | hp2
    · exact hq_done
    · refine ih (sig ++ [q]) (by rw [hsplit]; simp) ?_ p hp2
      intro r hr
      rcases List.mem_append.1 hr with h | h
      · exact hsig r h
      · simp at h
        exact h ▸ hq_done

/-- Completeness of the scan loop: from an invariant state, if some
order of all processes is a valid completion order, the loop (with
sufficient fuel) ends with `count = n` and every process marked. -/
theorem scanLoop_complete (alloc maxm needm : Mat) (avail : Vec) (n nR : Nat)
    (hn : alloc.length = n)
    (hneed : ∀ i, i < n → needm.getD i [] = needOf alloc maxm i)
    (ha : avail.length = nR)
    (hrows : ∀ i, i < n → (alloc.getD i []).length = nR)
    (hnn : ∀ i, i < n → ∀ x ∈ alloc.getD i [], 0 ≤ x)
    (ord : List Nat) (hperm : ord.Perm (List.range n))
    (hord : safeOrderB alloc maxm avail ord = true) :
    ∀ (fuel : Nat) (safe : List Bool) (work : Vec) (count : Nat),
    n - count < fuel →
    ScanInv alloc maxm avail n safe work count →
    (scanLoop alloc needm n fuel safe work count).2 = n ∧
    (scanLoop alloc needm n fuel safe work count).1.length = n ∧
    (∀ i, i < n → (scanLoop alloc needm n fuel safe work count).1.getD i false = true) := by
  intro fuel
  induction fuel with
  | zero => intro safe work count h1 _; omega
  | succ fuel ih =>
    intro safe work count hfuel hI
    simp only [scanLoop, pass_eq]
    split
    next hcond =>
      rcases hcond with hfin | hge
      · obtain ⟨heq, hstuckm⟩ := passAux_stuck alloc needm (List.range alloc.length)
          safe work count hfin
        rw [heq]
        obtain ⟨done, hnd, hlt, hcnt, hslen, hiff, hwork, -⟩ := hI
        have hstuck2 : ∀ i, i < n → i ∉ done →
            lev (needOf alloc maxm i) (workOf alloc avail done) = false := by
          intro i hin hnotin
          have hs : safe.getD i false = false := by
            cases hsv : safe.getD i false with
            | false => rfl
            | true => exact absurd ((hiff i hin).1 hsv) hnotin
          have hres := hstuckm i (List.mem_range.2 (by omega)) hs
          rw [hneed i hin, hwork] at hres
          exact hres
        have hall : ∀ i, i < n → i ∈ done :=
          stuck_all_in alloc maxm avail n nR ha hrows hnn done hnd hlt hstuck2 ord hperm hord
        have hsub1 : List.Subperm done (List.range n) :=
          hnd.subperm (fun i hi => List.mem_range.2 (hlt i hi))
        have hperm2 : done.Perm (List.range n) :=
          hsub1.perm_of_length_le (by
            have := ((List.nodup_range n).subperm
              (fun i hi => hall i (List.mem_range.1 hi))).length_le
            simpa using this)
        have hcn : count = n := by rw [hcnt, hperm2.length_eq]; simp
        refine ⟨hcn, hslen, ?_⟩
        intro i hin
        exact (hiff i hin).2 (hall i hin)
      · have hr := passAux_inv alloc maxm needm avail n hneed (List.range alloc.length)
          safe work count true (fun i hi => by have := List.mem_range.1 hi; omega) hI
        obtain ⟨hceq, hslen2, hmarks, -⟩ := inv_count_ge_all _ _ _ _ _ _ _ hr hge
        exact ⟨hceq, hslen2, hmarks⟩
    next hcond =>
      push_neg at hcond
      have hprog := passAux_progress alloc needm (List.range alloc.length) safe work count
        (by simpa using hcond.1)
      have hr := passAux_inv alloc maxm needm avail n hneed (List.range alloc.length)
        safe work count true (fun i hi => by have := List.mem_range.1 hi; omega) hI
      exact ih _ _ _ (by omega) hr

/-- Safety completeness: if some order of all processes is a valid
completion order (and allocation entries are nonnegative), `isSafeState`
returns `true`. -/
theorem isSafeState_complete (st : Banker) (nR : Nat)
    (hm : st.max.length = st.allocation.length)
    (ha : st.available.length = nR)
    (hrect : ∀ row ∈ st.allocation, row.length = nR)
    (hnn : ∀ row ∈ st.allocation, ∀ x ∈ row, 0 ≤ x)
    (hseq : SafeSeq st) : isSafeState st = true := by
  obtain ⟨ord, hperm, hord⟩ := hseq
  have hneed : ∀ i, i < st.allocation.length →
      (List.zipWith subv st.max st.allocation).getD i [] = needOf st.allocation st.max i := by
    intro i hi
    rw [getD_zipWith subv [] [] [] st.max st.allocation i (by omega) hi]
    rfl
  have hrows : ∀ i, i < st.allocation.length → (st.allocation.getD i []).length = nR :=
    fun i hi => hrect _ (getD_mem _ i [] hi)
  have hnn2 : ∀ i, i < st.allocation.length → ∀ x ∈ st.allocation.getD i [], 0 ≤ x :=
    fun i hi => hnn _ (getD_mem _ i [] hi)
  have hinit : ScanInv st.allocation st.max st.available st.allocation.length
      (List.replicate st.allocation.length false) st.available 0 := by
    refine ⟨[], List.nodup_nil, by simp, by simp, by simp, ?_, rfl, rfl⟩
    intro i _
    simp [getD_replicate_false]
  obtain ⟨hcn, hslen, hmarks⟩ := scanLoop_complete st.allocation st.max
    (List.zipWith subv st.max st.allocation) st.available st.allocation.length nR rfl hneed
    ha hrows hnn2 ord hperm hord (st.allocation.length + 1)
    (List.replicate st.allocation.length false) st.available 0 (by omega) hinit
  simp only [isSafeState]
  rw [if_neg (by omega)]
  exact all_eq_true_of_getD _ (fun i hi => hmarks i (by omega))

/-- `subReq` from the empty vector is empty. -/
theorem subReq_nil : ∀ d : Vec, subReq [] d = []
  | [] => rfl
  | _ :: _ => rfl

/-- `addv` on two conses. -/
theorem addv_cons (x y : Int) (xs ys : Vec) :
    addv (x :: xs) (y :: ys) = (x + y) :: addv xs ys := rfl

/-- `subv` on two conses. -/
theorem subv_cons (x y : Int) (xs ys : Vec) :
    subv (x :: xs) (y :: ys) = (x - y) :: subv xs ys := rfl

/-- The sum of two nonnegative vectors is nonnegative. -/
theorem addReq_nonneg : ∀ (a b : Vec), (∀ x ∈ a, 0 ≤ x) → (∀ x ∈ b, 0 ≤ x) →
    ∀ x ∈ addReq a b, 0 ≤ x
  | a, [], ha, _ => by simp only [addReq]; exact ha
  | [], _ :: _, _, _ => by simp [addReq]
  | x :: xs, y :: ys, ha, hb => by
    simp only [addReq, List.mem_cons]
    rintro z (rfl | hz)
    · exact add_nonneg (ha x (by simp)) (hb y (by simp))
    · exact addReq_nonneg xs ys (fun u hu => ha u (by simp [hu]))
        (fun u hu => hb u (by simp [hu])) z hz

/-- Subtracting a componentwise-smaller vector keeps nonnegativity. -/
theorem subReq_nonneg : ∀ (a b : Vec), (∀ x ∈ a, 0 ≤ x) → lev b a = true →
    ∀ x ∈ subReq a b, 0 ≤ x
  | a, [], ha, _ => by simp only [subReq]; exact ha
  | [], _ :: _, _, _ => by simp [subReq_nil]
  | x :: xs, y :: ys, ha, hb => by
    simp only [lev, Bool.and_eq_true, decide_eq_true_eq] at hb
    simp only [subReq, List.mem_cons]
    rintro z (rfl | hz)
    · omega
    · exact subReq_nonneg xs ys (fun u hu => ha u (by simp [hu])) hb.2 z hz

/-- Updating by `d` (prefix add) commutes with a componentwise add. -/
theorem addReq_addv_comm : ∀ (w d r : Vec), addv (addReq w d) r = addReq (addv w r) d
  | w, [], r => by simp only [addReq]
  | [], _ :: _, r => by simp [addReq, addv]
  | _ :: _, _ :: _, [] => by simp [addReq, addv]
  | w0 :: ws, d0 :: ds, r0 :: rs => by
    simp only [addReq, addv_cons]
    rw [addReq_addv_comm ws ds rs]
    congr 1
    ring

/-- `max - (a - d) = (max - a) + d` componentwise on the shared prefix. -/
theorem subv_subReq : ∀ (m a d : Vec), subv m (subReq a d) = addReq (subv m a) d
  | m, a, [] => by simp only [subReq, addReq]
  | m, [], _ :: _ => by simp [subReq_nil, subv, addReq]
  | [], _ :: _, _ :: _ => by simp [subReq, subv, addReq]
  | m0 :: ms, a0 :: as_, d0 :: ds => by
    simp only [subReq, subv_cons, addReq]
    rw [subv_subReq ms as_ ds]
    congr 1
    ring

/-- `(w + d) + (r - d) = w + r` componentwise on the shared prefix. -/
theorem addv_addReq_subReq : ∀ (w r d : Vec), addv (addReq w d) (subReq r d) = addv w r
  | w, r, [] => by simp only [addReq, subReq]
  | [], r, _ :: _ => by simp [addReq, addv]
  | _ :: _, [], _ :: _ => by simp [addReq, subReq_nil, addv]
  | w0 :: ws, r0 :: rs, d0 :: ds => by
    simp only [addReq, subReq, addv_cons]
    rw [addv_addReq_subReq ws rs ds]
    congr 1
    ring

/-- Adding the same prefix `d` to both sides preserves `lev`. -/
theorem lev_addReq_both : ∀ (a w d : Vec), lev a w = true →
    lev (addReq a d) (addReq w d) = true
  | a, w, [], h => by simpa only [addReq] using h
  | [], w, _ :: _, _ => by simp [addReq, lev]
  | _ :: _, [], _ :: _, h => by simp only [addReq, lev]
  | a0 :: as_, w0 :: ws, d0 :: ds, h => by
    simp only [lev, Bool.and_eq_true, decide_eq_true_eq] at h ⊢
    exact ⟨by omega, lev_addReq_both as_ ws ds h.2⟩

/-- Characterization of the greedy safety check: with well-formed
dimensions and nonnegative allocation entries, `isSafeState` answers
`true` exactly when some completion order of all processes exists. -/
theorem isSafeState_iff_safeSeq (st : Banker) (nR : Nat)
    (hm : st.max.length = st.allocation.length)
    (ha : st.available.length = nR)
    (hrect : ∀ row ∈ st.allocation, row.length = nR)
    (hnn : ∀ row ∈ st.allocation, ∀ x ∈ row, 0 ≤ x) :
    isSafeState st = true ↔ SafeSeq st :=
  ⟨isSafeState_sound st hm, isSafeState_complete st nR hm ha hrect hnn⟩

/-- Claim C2 as amended: for a state whose matrices are rectangular with
matching dimensions, whose available vector matches, and whose
allocation entries are nonnegative, `isSafeState` returns `true` iff
some ordering of all processes finishes each with its Need covered by
the accumulated work; `false` therefore means exactly that the scan
stalls with unfinished processes and no such ordering exists. -/
theorem claim2_safe_iff_order (st : Banker) (nR : Nat)
    (hm : st.max.length = st.allocation.length)
    (ha : st.available.length = nR)
    (hrect : ∀ row ∈ st.allocation, row.length = nR)
    (_hrectm : ∀ row ∈ st.max, row.length = nR)
    (hnn : ∀ row ∈ st.allocation, ∀ x ∈ row, 0 ≤ x) :
    isSafeState st = true ↔ SafeSeq st :=
  isSafeState_iff_safeSeq st nR hm ha hrect hnn

/-- Witness for claim C2 at the classic demo state. -/
theorem claim2_witness :
    (classicB0.max.length = classicB0.allocation.length ∧
      classicB0.available.length = 3 ∧
      (∀ row ∈ classicB0.allocation, row.length = 3) ∧
      (∀ row ∈ classicB0.max, row.length = 3) ∧
      (∀ row ∈ classicB0.allocation, ∀ x ∈ row, 0 ≤ x)) ∧
    (isSafeState classicB0 = true ↔ SafeSeq classicB0) :=
  ⟨⟨by decide, by decide, by decide, by decide, by decide⟩,
    claim2_safe_iff_order classicB0 3 (by decide) (by decide) (by decide) (by decide)
      (by decide)⟩

/-- `isSafeState` only reads `allocation`, `max` and `available`. -/
theorem isSafeState_ext (st st' : Banker) (h1 : st.allocation = st'.allocation)
    (h2 : st.max = st'.max) (h3 : st.available = st'.available) :
    isSafeState st = isSafeState st' := by
  simp only [isSafeState, h1, h2, h3]

/-- Monotonicity in `available`: a state that differs from a safe
well-formed state only by a componentwise-larger available vector is
also safe. -/
theorem isSafeState_mono_avail (st st' : Banker) (nR : Nat)
    (halloc : st'.allocation = st.allocation) (hmax : st'.max = st.max)
    (hm : st.max.length = st.allocation.length)
    (hrect : ∀ row ∈ st.allocation, row.length = nR)
    (hnn : ∀ row ∈ st.allocation, ∀ x ∈ row, 0 ≤ x)
    (ha : st.available.length = nR)
    (hle : List.Forall₂ (· ≤ ·) st.available st'.available)
    (h : isSafeState st = true) : isSafeState st' = true := by
  obtain ⟨ord, hperm, hord⟩ := isSafeState_sound st hm h
  apply isSafeState_complete st' nR (by rw [halloc, hmax]; exact hm)
    (by rw [← hle.length_eq]; exact ha)
    (by rw [halloc]; exact hrect) (by rw [halloc]; exact hnn)
  refine ⟨ord, by rw [halloc]; exact hperm, ?_⟩
  rw [halloc, hmax]
  exact safeOrderB_mono st.allocation st.max ord hle hord

/-- `mkBanker` stores its allocation argument. -/
theorem mkBanker_allocation (a m : Mat) (v : Vec) : (mkBanker a m v).allocation = a := rfl

/-- `mkBanker` stores its max-claim argument. -/
theorem mkBanker_max (a m : Mat) (v : Vec) : (mkBanker a m v).max = m := rfl

/-- `mkBanker` stores its available argument. -/
theorem mkBanker_available (a m : Mat) (v : Vec) : (mkBanker a m v).available = v := rfl

/-- Claim C1 as amended: for a well-formed state (rectangular matrices,
matching lengths, nonnegative allocation entries), an in-range process
and a demand with nonnegative entries, a granted request leaves the real
state safe.  The tentative state was verified safe, and the committed
state differs from it only by the add-back on `available`, which is
componentwise larger — monotonicity closes the gap. -/
theorem claim1_grant_preserves_safety (st : Banker) (pid : Nat) (request : Vec) (nR : Nat)
    (hm : st.max.length = st.allocation.length)
    (ha : st.available.length = nR)
    (hrect : ∀ row ∈ st.allocation, row.length = nR)
    (hnn : ∀ row ∈ st.allocation, ∀ x ∈ row, 0 ≤ x)
    (hpid : pid < st.allocation.length)
    (hreq : ∀ x ∈ request, 0 ≤ x)
    (h : (requestResources st pid request).2 = true) :
    isSafeState (requestResources st pid request).1 = true := by
  obtain ⟨-, hsafe, hshape⟩ := requestResources_grant st pid request h
  rw [hshape, addReq_subReq]
  have hrowmem : st.allocation.getD pid [] ∈ st.allocation := getD_mem _ pid [] hpid
  have hrectT : ∀ row ∈ st.allocation.set pid (addReq (st.allocation.getD pid []) request),
      row.length = nR := by
    intro row hrow
    rcases List.mem_or_eq_of_mem_set hrow with hmem | rfl
    · exact hrect row hmem
    · rw [length_addReq]
      exact hrect _ hrowmem
  have hnnT : ∀ row ∈ st.allocation.set pid (addReq (st.allocation.getD pid []) request),
      ∀ x ∈ row, 0 ≤ x := by
    intro row hrow
    rcases List.mem_or_eq_of_mem_set hrow with hmem | rfl
    · exact hnn row hmem
    · exact addReq_nonneg _ _ (hnn _ hrowmem) hreq
  refine isSafeState_mono_avail
    (mkBanker (st.allocation.set pid (addReq (st.allocation.getD pid []) request)) st.max
      (subReq st.available request)) _ nR rfl rfl ?_ ?_ ?_ ?_ ?_ hsafe
  · simp only [mkBanker_max, mkBanker_allocation, List.length_set]
    exact hm
  · simp only [mkBanker_allocation]
    exact hrectT
  · simp only [mkBanker_allocation]
    exact hnnT
  · simp only [mkBanker_available, length_subReq]
    exact ha
  · simp only [mkBanker_available]
    exact vle_subReq st.available request hreq

/-- Witness for claim C1 at the granted scenario-1 call of the source. -/
theorem claim1_witness :
    (requestResources classicB0 1 [1, 0, 2]).2 = true ∧
    isSafeState (requestResources classicB0 1 [1, 0, 2]).1 = true :=
  ⟨by decide, claim1_grant_preserves_safety classicB0 1 [1, 0, 2] 3 (by decide) (by decide)
    (by decide) (by decide) (by decide) (by decide) (by decide)⟩

/-- A completion order that avoids `pid` is insensitive to replacing row
`pid` of the allocation matrix. -/
theorem safeOrderB_set_not_mem (alloc maxm : Mat) (pid : Nat) (v : List Int) :
    ∀ (l : List Nat) (w : Vec), pid ∉ l →
    safeOrderB (alloc.set pid v) maxm w l = safeOrderB alloc maxm w l := by
  intro l
  induction l with
  | nil => intro w _; rfl
  | cons q rest ih =>
    intro w hq
    have hqpid : pid ≠ q := fun hc => hq (by simp [hc])
    simp only [safeOrderB, needOf, getD_set_ne alloc pid q v [] hqpid]
    rw [ih (addv w (alloc.getD q [])) (fun hc => hq (by simp [hc]))]

/-- Transport of a completion order across a release of `d ≥ 0` held by
`pid`: before `pid` finishes, the work is componentwise higher by `d`;
at `pid`, the need has grown by exactly `d` and the work advantage is
consumed; afterwards both runs coincide on the untouched rows. -/
theorem safeOrderB_release (alloc maxm : Mat) (pid : Nat) (d : Vec)
    (hd : ∀ x ∈ d, 0 ≤ x) :
    ∀ (l : List Nat) (w : Vec), l.Nodup →
    safeOrderB alloc maxm w l = true →
    safeOrderB (alloc.set pid (subReq (alloc.getD pid []) d)) maxm (addReq w d) l = true := by
  intro l
  induction l with
  | nil => intro w _ _; rfl
  | cons q rest ih =>
    intro w hnd h
    simp only [safeOrderB, Bool.and_eq_true] at h
    obtain ⟨hlev, hrest⟩ := h
    have hndtail := (List.nodup_cons.1 hnd).2
    have hnothead := (List.nodup_cons.1 hnd).1
    by_cases hq : q = pid
    · subst hq
      have hrow : (alloc.set q (subReq (alloc.getD q []) d)).getD q [] =
          subReq (alloc.getD q []) d :=
        getD_set_row alloc q _ (fun hlen => by
          rw [List.getD_eq_default _ _ hlen, subReq_nil])
      simp only [safeOrderB, Bool.and_eq_true]
      constructor
      · simp only [needOf, hrow, subv_subReq]
        simp only [needOf] at hlev
        exact lev_addReq_both _ w d hlev
      · rw [hrow, addv_addReq_subReq]
        rw [safeOrderB_set_not_mem alloc maxm q _ rest _ hnothead]
        exact hrest
    · simp only [safeOrderB, Bool.and_eq_true]
      have hpidq : pid ≠ q := fun hc => hq hc.symm
      constructor
      · simp only [needOf, getD_set_ne alloc pid q _ [] hpidq]
        simp only [needOf] at hlev
        exact lev_mono_right _ (vle_addReq w d hd) hlev
      · rw [getD_set_ne alloc pid q _ [] hpidq, addReq_addv_comm]
        exact ih (addv w (alloc.getD q [])) hndtail hrest

/-- Claim C5 as amended: for a well-formed state (rectangular matrices,
matching lengths, nonnegative allocation entries) that is safe, and a
valid release — in-range process, amounts componentwise nonnegative and
at most the held allocation — the state after `releaseResources` is
still safe. -/
theorem claim5_release_preserves_safety (st : Banker) (pid : Nat) (amounts : Vec) (nR : Nat)
    (hm : st.max.length = st.allocation.length)
    (ha : st.available.length = nR)
    (hrect : ∀ row ∈ st.allocation, row.length = nR)
    (hnn : ∀ row ∈ st.allocation, ∀ x ∈ row, 0 ≤ x)
    (hpid : pid < st.allocation.length)
    (hamt : ∀ x ∈ amounts, 0 ≤ x)
    (hle : lev amounts (st.allocation.getD pid []) = true)
    (h : isSafeState st = true) :
    isSafeState (releaseResources st pid amounts) = true := by
  obtain ⟨ord, hperm, hord⟩ := isSafeState_sound st hm h
  have hordnd : ord.Nodup := hperm.nodup_iff.2 (List.nodup_range _)
  have hrowmem : st.allocation.getD pid [] ∈ st.allocation := getD_mem _ pid [] hpid
  apply isSafeState_complete (releaseResources st pid amounts) nR
  · simp only [releaseResources, List.length_set]
    exact hm
  · simp only [releaseResources, length_addReq]
    exact ha
  · simp only [releaseResources]
    intro row hrow
    rcases List.mem_or_eq_of_mem_set hrow with hmem | rfl
    · exact hrect row hmem
    · rw [length_subReq]
      exact hrect _ hrowmem
  · simp only [releaseResources]
    intro row hrow
    rcases List.mem_or_eq_of_mem_set hrow with hmem | rfl
    · exact hnn row hmem
    · exact subReq_nonneg _ _ (hnn _ hrowmem) hle
  · refine ⟨ord, ?_, ?_⟩
    · simpa only [releaseResources, List.length_set] using hperm
    · simp only [releaseResources]
      exact safeOrderB_release st.allocation st.max pid amounts hamt ord st.available
        hordnd hord

/-- Witness for claim C5: releasing `[1,0,0]` from process 1 (holding
`[2,0,0]`) on the safe classic demo state keeps the state safe. -/
theorem claim5_witness :
    (isSafeState classicB0 = true ∧
      lev [1, 0, 0] (classicB0.allocation.getD 1 []) = true) ∧
    isSafeState (releaseResources classicB0 1 [1, 0, 0]) = true :=
  ⟨⟨by decide, by decide⟩,
    claim5_release_preserves_safety classicB0 1 [1, 0, 0] 3 (by decide) (by decide)
      (by decide) (by decide) (by decide) (by decide) (by decide) (by decide)⟩
